import Mathlib

set_option maxHeartbeats 1000000

/-!
Verification of the Delaunay facet-to-triangle translation layer of the
qhull wrapper (src/contrib/python/matplotlib/py3/src/_qhull_wrapper.cpp).

The convex-hull engine (libqhull) is external to the repository; it is
modelled as an oracle producing a list of facets.  Each facet carries the
fields the wrapper reads: a sparse id, the upperdelaunay and toporient
flags, its three incident vertex point-ids in engine-native order, and its
three neighbouring facets in engine-native order (referenced by position in
the engine enumeration, mirroring the C facet pointers).

Double-precision coordinates are modelled by the type FP below: either NaN
or an exact value.  The wrapper only ever compares coordinates with the
IEEE operators and combines them with +, -, /; both are modelled exactly,
with NaN absorbing arithmetic and comparing unequal to everything.
-/

/-- A double coordinate as the wrapper observes it: NaN or a finite value
(the finite value is carried exactly as a rational). -/
inductive FP where
  | nan : FP
  | val : ℚ → FP
  deriving DecidableEq, Repr

/-- IEEE equality on coordinates: NaN is unequal to everything, itself
included; finite values compare exactly. -/
def fpEq : FP → FP → Bool
  | FP.nan, _ => false
  | FP.val _, FP.nan => false
  | FP.val a, FP.val b => decide (a = b)

/-- One two-dimensional input point. -/
abbrev Pt := FP × FP

/-- The coordinate-pair inequality test used throughout
at_least_3_unique_points: x differs or y differs (IEEE semantics). -/
def pointNe (p q : Pt) : Bool := !(fpEq p.1 q.1) || !(fpEq p.2 q.2)

/-- One facet of the engine output, restricted to the fields the wrapper
reads.  Neighbour entries n0 n1 n2 are positions into the engine facet
enumeration (the model of the facetT pointers). -/
structure Facet where
  fid : Nat
  upperdelaunay : Bool
  toporient : Bool
  v0 : Nat
  v1 : Nat
  v2 : Nat
  n0 : Nat
  n1 : Nat
  n2 : Nat
  deriving DecidableEq, Repr

/-- The three vertex point-ids of a facet in engine-native order
(get_facet_vertices in the C source). -/
def get_facet_vertices (f : Facet) : Nat × Nat × Nat := (f.v0, f.v1, f.v2)

/-- Pass 1 of delaunay_impl: count the facets with upperdelaunay false
(the value called ntri in the C source). -/
def countRetained : List Facet → Nat
  | [] => 0
  | f :: rest => if f.upperdelaunay then countRetained rest else countRetained rest + 1

/-- The tri_indices assignment loop of pass 2: walk the facet list with a
counter, writing the next dense index into slot fid for a retained facet
and -1 for an upper-delaunay facet. -/
def triIndexPass : List Facet → List Int → Nat → List Int
  | [], tri, _ => tri
  | f :: rest, tri, i =>
    if f.upperdelaunay then triIndexPass rest (tri.set f.fid (-1)) i
    else triIndexPass rest (tri.set f.fid (Int.ofNat i)) (i + 1)

/-- The tri_indices vector: size maxId+1, zero-initialised
(std vector of int), then filled by the pass-2 loop. -/
def buildTriIndices (facets : List Facet) (maxId : Nat) : List Int :=
  triIndexPass facets (List.replicate (maxId + 1) 0) 0

/-- Dereference one neighbour pointer and map it as get_facet_neighbours
does: an upperdelaunay neighbour becomes -1, any other neighbour is looked
up through tri_indices by its facet id. -/
def mapNeighbour (facets : List Facet) (tri : List Int) (pos : Nat) : Int :=
  match facets[pos]? with
  | some nb => if nb.upperdelaunay then -1 else tri.getD nb.fid 0
  | none => 0

/-- The three mapped neighbour indices of a facet in engine-native order
(get_facet_neighbours in the C source). -/
def get_facet_neighbours (facets : List Facet) (tri : List Int) (f : Facet) :
    Int × Int × Int :=
  (mapNeighbour facets tri f.n0, mapNeighbour facets tri f.n1, mapNeighbour facets tri f.n2)

/-- One emitted triangles row, exactly as the three writes of pass 2:
column 0 is v0 when toporient else v2, column 1 is v1, column 2 is v2 when
toporient else v0. -/
def triRow (f : Facet) : Int × Int × Int :=
  ((if f.toporient then (f.v0 : Int) else (f.v2 : Int)),
   (f.v1 : Int),
   (if f.toporient then (f.v2 : Int) else (f.v0 : Int)))

/-- Pass 2 emission: one triangles row per retained facet, in enumeration
order. -/
def emitTriangles : List Facet → List (Int × Int × Int)
  | [] => []
  | f :: rest =>
    if f.upperdelaunay then emitTriangles rest else triRow f :: emitTriangles rest

/-- One emitted neighbors row, exactly as the three writes of pass 3:
column 0 is mapped-n2 when toporient else mapped-n0, column 1 is mapped-n0
when toporient else mapped-n2, column 2 is mapped-n1. -/
def nbrRow (facets : List Facet) (tri : List Int) (f : Facet) : Int × Int × Int :=
  ((if f.toporient then (get_facet_neighbours facets tri f).2.2
    else (get_facet_neighbours facets tri f).1),
   (if f.toporient then (get_facet_neighbours facets tri f).1
    else (get_facet_neighbours facets tri f).2.2),
   (get_facet_neighbours facets tri f).2.1)

/-- Pass 3 emission: one neighbors row per retained facet, in enumeration
order, using the completed tri_indices map. -/
def emitNeighbours (facets : List Facet) (tri : List Int) : List Facet → List (Int × Int × Int)
  | [] => []
  | f :: rest =>
    if f.upperdelaunay then emitNeighbours facets tri rest
    else nbrRow facets tri f :: emitNeighbours facets tri rest

/-- The two output matrices of a successful call. -/
structure Output where
  triangles : List (Int × Int × Int)
  neighbors : List (Int × Int × Int)
  deriving DecidableEq, Repr

/-- The whole facet-to-triangle translation performed by delaunay_impl on a
successful engine run: build tri_indices, then emit both matrices. -/
def translateFacets (facets : List Facet) (maxId : Nat) : Output :=
  { triangles := emitTriangles facets,
    neighbors := emitNeighbours facets (buildTriIndices facets maxId) facets }

/-- The output-column reordering applied to the vertex slots: identity when
toporient, reversal (slot2, slot1, slot0) otherwise. -/
def reorder_vertices (t : Bool) (a : Int × Int × Int) : Int × Int × Int :=
  if t then a else (a.2.2, a.2.1, a.1)

/-- Cyclic rotation of the three columns one position to the right. -/
def rotateRight (a : Int × Int × Int) : Int × Int × Int := (a.2.2, a.1, a.2.1)

/-- Transposition of columns 0 and 2. -/
def swapCols02 (a : Int × Int × Int) : Int × Int × Int := (a.2.2, a.2.1, a.1)

/-- Modelled from the spec wording for the neighbour emission: apply the
same toporient-conditional reordering used for the vertices, but with
columns 0 and 2 swapped relative to the vertex reordering.  This is the
claimed recipe, written independently of the source, for comparison with
the source-derived nbrRow. -/
def specNeighbourRow (t : Bool) (a : Int × Int × Int) : Int × Int × Int :=
  swapCols02 (reorder_vertices t a)

lemma emitTriangles_eq (facets : List Facet) :
    emitTriangles facets = (facets.filter (fun f => !f.upperdelaunay)).map triRow := by
  induction facets with
  | nil => rfl
  | cons f rest ih =>
    by_cases h : f.upperdelaunay <;>
      simp [emitTriangles, List.filter_cons, h, ih]

lemma emitNeighbours_eq (facets : List Facet) (tri : List Int) (l : List Facet) :
    emitNeighbours facets tri l =
      (l.filter (fun f => !f.upperdelaunay)).map (nbrRow facets tri) := by
  induction l with
  | nil => rfl
  | cons f rest ih =>
    by_cases h : f.upperdelaunay <;>
      simp [emitNeighbours, List.filter_cons, h, ih]

lemma countRetained_eq (facets : List Facet) :
    countRetained facets = (facets.filter (fun f => !f.upperdelaunay)).length := by
  induction facets with
  | nil => rfl
  | cons f rest ih =>
    by_cases h : f.upperdelaunay <;>
      simp [countRetained, List.filter_cons, h, ih]

/-- C2: for every retained facet, the emitted triangles row is the native
vertex triple (slot0, slot1, slot2) when toporient is true and
(slot2, slot1, slot0) when it is false, one row per retained facet in
enumeration order. -/
theorem triangles_toporient_order (facets : List Facet) (maxId : Nat) :
    (translateFacets facets maxId).triangles =
      (facets.filter (fun f => !f.upperdelaunay)).map
        (fun f =>
          if f.toporient then
            (((get_facet_vertices f).1 : Int), ((get_facet_vertices f).2.1 : Int),
              ((get_facet_vertices f).2.2 : Int))
          else
            (((get_facet_vertices f).2.2 : Int), ((get_facet_vertices f).2.1 : Int),
              ((get_facet_vertices f).1 : Int))) := by
  rw [translateFacets]
  rw [emitTriangles_eq]
  apply List.map_congr_left
  intro f _
  by_cases h : f.toporient <;> simp [triRow, get_facet_vertices, h]

/-- C6: the number of rows written by the vertex-emission pass and by the
neighbour-emission pass always equals the ntri computed by the counting
pass; a mismatch between the passes is impossible, so it is never silently
tolerated. -/
theorem emission_counts_agree (facets : List Facet) (maxId : Nat) :
    (translateFacets facets maxId).triangles.length = countRetained facets ∧
    (translateFacets facets maxId).neighbors.length = countRetained facets := by
  constructor <;>
    simp [translateFacets, emitTriangles_eq, emitNeighbours_eq, countRetained_eq]

/-- C1 (amended): the emitted neighbors row is the vertex reordering of the
mapped native neighbour triple followed by a cyclic right rotation of the
columns, one row per retained facet in enumeration order. -/
theorem neighbors_reorder_amended (facets : List Facet) (maxId : Nat) :
    (translateFacets facets maxId).neighbors =
      (facets.filter (fun f => !f.upperdelaunay)).map
        (fun f =>
          rotateRight (reorder_vertices f.toporient
            (get_facet_neighbours facets (buildTriIndices facets maxId) f))) := by
  rw [translateFacets]
  rw [emitNeighbours_eq]
  apply List.map_congr_left
  intro f _
  by_cases h : f.toporient <;>
    simp [nbrRow, rotateRight, reorder_vertices, h]

/-- A concrete engine output refuting the claimed column-0/2-swap recipe:
facet 0 is retained with toporient true and mapped neighbour triple
(1, 2, 3). -/
def cexFacet0 : Facet := ⟨0, false, true, 0, 1, 2, 1, 2, 3⟩

def cexFacet1 : Facet := ⟨1, false, true, 0, 1, 3, 0, 0, 0⟩

def cexFacet2 : Facet := ⟨2, false, true, 1, 2, 3, 0, 0, 0⟩

def cexFacet3 : Facet := ⟨3, false, true, 0, 2, 3, 0, 0, 0⟩

def cexFacets : List Facet := [cexFacet0, cexFacet1, cexFacet2, cexFacet3]

/-- C1 (counterexample): on the concrete engine output cexFacets the row the
code emits for facet 0 is not the row prescribed by the spec wording (the
vertex reordering with columns 0 and 2 swapped); the code writes (3, 1, 2)
while the claimed recipe yields (3, 2, 1). -/
theorem neighbors_reorder_claim_cex :
    (translateFacets cexFacets 3).neighbors.getD 0 (0, 0, 0) ≠
      specNeighbourRow cexFacet0.toporient
        (get_facet_neighbours cexFacets (buildTriIndices cexFacets 3) cexFacet0) := by
  decide

lemma length_triIndexPass (fs : List Facet) :
    ∀ (tri : List Int) (i : Nat), (triIndexPass fs tri i).length = tri.length := by
  induction fs with
  | nil => intro tri i; rfl
  | cons f rest ih =>
    intro tri i
    by_cases h : f.upperdelaunay <;> simp [triIndexPass, h, ih]

lemma triIndexPass_cons_upper {f : Facet} (rest : List Facet) (tri : List Int) (i : Nat)
    (h : f.upperdelaunay = true) :
    triIndexPass (f :: rest) tri i = triIndexPass rest (tri.set f.fid (-1)) i := by
  simp [triIndexPass, h]

lemma triIndexPass_cons_retained {f : Facet} (rest : List Facet) (tri : List Int) (i : Nat)
    (h : f.upperdelaunay = false) :
    triIndexPass (f :: rest) tri i = triIndexPass rest (tri.set f.fid (Int.ofNat i)) (i + 1) := by
  simp [triIndexPass, h]

lemma getD_set_ne (tri : List Int) (i j : Nat) (v : Int) (hne : i ≠ j) :
    (tri.set i v).getD j 0 = tri.getD j 0 := by
  simp [List.getD, List.getElem?_set_ne hne]

lemma getD_set_self (tri : List Int) (i : Nat) (v : Int) (hlt : i < tri.length) :
    (tri.set i v).getD i 0 = v := by
  simp [List.getD, List.getElem?_set_eq_of_lt v hlt]

lemma getD_triIndexPass_untouched (fs : List Facet) :
    ∀ (tri : List Int) (i j : Nat), (∀ f ∈ fs, f.fid ≠ j) →
      (triIndexPass fs tri i).getD j 0 = tri.getD j 0 := by
  induction fs with
  | nil => intro tri i j _; rfl
  | cons f rest ih =>
    intro tri i j hfar
    have hne : f.fid ≠ j := hfar f (List.mem_cons_self f rest)
    have hrest : ∀ g ∈ rest, g.fid ≠ j := fun g hg => hfar g (List.mem_cons_of_mem f hg)
    cases h : f.upperdelaunay
    · rw [triIndexPass_cons_retained rest tri i h, ih _ _ _ hrest,
        getD_set_ne tri f.fid j _ hne]
    · rw [triIndexPass_cons_upper rest tri i h, ih _ _ _ hrest,
        getD_set_ne tri f.fid j _ hne]

/-- The dense index block from s of length n, as integers. -/
def denseFrom : Nat → Nat → List Int
  | _, 0 => []
  | s, n + 1 => Int.ofNat s :: denseFrom (s + 1) n

lemma mem_denseFrom {e : Int} : ∀ (s n : Nat), e ∈ denseFrom s n →
    ∃ m : Nat, e = Int.ofNat m ∧ s ≤ m ∧ m < s + n := by
  intro s n
  induction n generalizing s with
  | zero => intro h; exact absurd h (List.not_mem_nil e)
  | succ n ih =>
    intro h
    rcases List.mem_cons.mp h with h0 | h1
    · exact ⟨s, h0, Nat.le_refl s, by omega⟩
    · obtain ⟨m, hm, hs, hlt⟩ := ih (s + 1) h1
      exact ⟨m, hm, by omega, by omega⟩

lemma triIndexPass_values (fs : List Facet) :
    ∀ (tri : List Int) (i : Nat), (fs.map Facet.fid).Nodup →
      (∀ f ∈ fs, f.fid < tri.length) →
      (fs.filter (fun f => !f.upperdelaunay)).map
          (fun f => (triIndexPass fs tri i).getD f.fid 0) =
        denseFrom i (countRetained fs) := by
  induction fs with
  | nil => intro tri i _ _; rfl
  | cons f rest ih =>
    intro tri i hnodup hlt
    have hnd_rest : (rest.map Facet.fid).Nodup := (List.nodup_cons.mp hnodup).2
    have hfar : ∀ g ∈ rest, g.fid ≠ f.fid := by
      intro g hg hEq
      exact (List.nodup_cons.mp hnodup).1 (hEq ▸ List.mem_map_of_mem Facet.fid hg)
    have hflen : f.fid < tri.length := hlt f (List.mem_cons_self f rest)
    cases h : f.upperdelaunay
    · have hlt_rest : ∀ g ∈ rest, g.fid < (tri.set f.fid (Int.ofNat i)).length := by
        intro g hg
        simpa using hlt g (List.mem_cons_of_mem f hg)
      rw [triIndexPass_cons_retained rest tri i h]
      have hcount : countRetained (f :: rest) = countRetained rest + 1 := by
        simp [countRetained, h]
      have hfilter : (f :: rest).filter (fun g => !g.upperdelaunay) =
          f :: rest.filter (fun g => !g.upperdelaunay) := by
        simp [List.filter_cons, h]
      rw [hcount, hfilter, List.map_cons, denseFrom]
      refine List.cons_eq_cons.mpr ⟨?_, ?_⟩
      · rw [getD_triIndexPass_untouched rest _ _ _ hfar,
          getD_set_self tri f.fid (Int.ofNat i) hflen]
      · exact ih (tri.set f.fid (Int.ofNat i)) (i + 1) hnd_rest hlt_rest
    · have hlt_rest : ∀ g ∈ rest, g.fid < (tri.set f.fid (-1)).length := by
        intro g hg
        simpa using hlt g (List.mem_cons_of_mem f hg)
      rw [triIndexPass_cons_upper rest tri i h]
      have hcount : countRetained (f :: rest) = countRetained rest := by
        simp [countRetained, h]
      have hfilter : (f :: rest).filter (fun g => !g.upperdelaunay) =
          rest.filter (fun g => !g.upperdelaunay) := by
        simp [List.filter_cons, h]
      rw [hcount, hfilter]
      exact ih (tri.set f.fid (-1)) i hnd_rest hlt_rest

lemma triIndexPass_upper (fs : List Facet) :
    ∀ (tri : List Int) (i : Nat) (f : Facet), (fs.map Facet.fid).Nodup →
      f ∈ fs → f.upperdelaunay = true → f.fid < tri.length →
      (triIndexPass fs tri i).getD f.fid 0 = -1 := by
  induction fs with
  | nil => intro tri i f _ hmem; exact absurd hmem (List.not_mem_nil f)
  | cons g rest ih =>
    intro tri i f hnodup hmem hup hflen
    have hnd_rest : (rest.map Facet.fid).Nodup := (List.nodup_cons.mp hnodup).2
    rcases List.mem_cons.mp hmem with hfg | hf_rest
    · subst hfg
      have hfar : ∀ g ∈ rest, g.fid ≠ f.fid := by
        intro g hg hEq
        exact (List.nodup_cons.mp hnodup).1 (hEq ▸ List.mem_map_of_mem Facet.fid hg)
      rw [triIndexPass_cons_upper rest tri i hup,
        getD_triIndexPass_untouched rest _ _ _ hfar,
        getD_set_self tri f.fid (-1) hflen]
    · cases h : g.upperdelaunay
      · rw [triIndexPass_cons_retained rest tri i h]
        exact ih _ _ f hnd_rest hf_rest hup (by simpa using hflen)
      · rw [triIndexPass_cons_upper rest tri i h]
        exact ih _ _ f hnd_rest hf_rest hup (by simpa using hflen)

/-- Well-formedness of the engine facet output, as libqhull guarantees it:
facet ids bounded by the final facet id, ids pairwise distinct, and every
neighbour pointer referencing a facet of the enumeration. -/
abbrev WF (facets : List Facet) (maxId : Nat) : Prop :=
  (∀ f ∈ facets, f.fid ≤ maxId) ∧
  (facets.map Facet.fid).Nodup ∧
  (∀ f ∈ facets, f.n0 < facets.length ∧ f.n1 < facets.length ∧ f.n2 < facets.length)

lemma buildTriIndices_length (facets : List Facet) (maxId : Nat) :
    (buildTriIndices facets maxId).length = maxId + 1 := by
  simp [buildTriIndices, length_triIndexPass]

lemma mapNeighbour_valid (facets : List Facet) (maxId : Nat)
    (hid : ∀ f ∈ facets, f.fid ≤ maxId) (hnodup : (facets.map Facet.fid).Nodup)
    (pos : Nat) (hpos : pos < facets.length) :
    mapNeighbour facets (buildTriIndices facets maxId) pos = -1 ∨
      (0 ≤ mapNeighbour facets (buildTriIndices facets maxId) pos ∧
        mapNeighbour facets (buildTriIndices facets maxId) pos <
          Int.ofNat (countRetained facets)) := by
  have hsome : facets[pos]? = some facets[pos] := List.getElem?_eq_getElem hpos
  have hmem : facets[pos] ∈ facets := List.getElem_mem hpos
  by_cases hup : (facets[pos]).upperdelaunay
  · left
    simp [mapNeighbour, hsome, hup]
  · right
    have hlt : ∀ f ∈ facets, f.fid < (List.replicate (maxId + 1) (0 : Int)).length := by
      intro f hf
      simp [Nat.lt_succ_of_le (hid f hf)]
    have hvals := triIndexPass_values facets (List.replicate (maxId + 1) 0) 0 hnodup hlt
    have hmem_f : facets[pos] ∈ facets.filter (fun f => !f.upperdelaunay) :=
      List.mem_filter.mpr ⟨hmem, by simp [hup]⟩
    have hmem_v : (buildTriIndices facets maxId).getD (facets[pos]).fid 0 ∈
        denseFrom 0 (countRetained facets) := by
      rw [← hvals]
      exact List.mem_map_of_mem _ hmem_f
    obtain ⟨m, hm, _, hmlt⟩ := mem_denseFrom 0 (countRetained facets) hmem_v
    have hres : mapNeighbour facets (buildTriIndices facets maxId) pos =
        (buildTriIndices facets maxId).getD (facets[pos]).fid 0 := by
      simp [mapNeighbour, hsome, hup]
    rw [hres, hm]
    constructor
    · exact Int.ofNat_nonneg m
    · exact Int.ofNat_lt.mpr (by omega)

/-- C3: under the engine invariants, every entry of the emitted neighbors
matrix is -1 or a valid row index below ntri; the tri_indices map assigns
the dense indices 0, 1, ..., ntri-1 to the retained facets in enumeration
order; and a neighbour that is an upper-hull facet is always mapped
to -1. -/
theorem neighbors_entries_valid (facets : List Facet) (maxId : Nat)
    (h : WF facets maxId) :
    (∀ row ∈ (translateFacets facets maxId).neighbors,
      ∀ e : Int, (e = row.1 ∨ e = row.2.1 ∨ e = row.2.2) →
        e = -1 ∨ (0 ≤ e ∧ e < Int.ofNat (countRetained facets))) ∧
    ((facets.filter (fun f => !f.upperdelaunay)).map
        (fun f => (buildTriIndices facets maxId).getD f.fid 0) =
      denseFrom 0 (countRetained facets)) ∧
    (∀ pos : Nat, ∀ nb : Facet, facets[pos]? = some nb → nb.upperdelaunay = true →
      mapNeighbour facets (buildTriIndices facets maxId) pos = -1) := by
  obtain ⟨hid, hnodup, hnbr⟩ := h
  refine ⟨?_, ?_, ?_⟩
  · intro row hrow e he
    rw [translateFacets, emitNeighbours_eq] at hrow
    simp only at hrow
    rcases List.mem_map.mp hrow with ⟨f, hf_mem, hf_row⟩
    have hf_in : f ∈ facets := (List.mem_filter.mp hf_mem).1
    obtain ⟨h0, h1, h2⟩ := hnbr f hf_in
    have b0 := mapNeighbour_valid facets maxId hid hnodup f.n0 h0
    have b1 := mapNeighbour_valid facets maxId hid hnodup f.n1 h1
    have b2 := mapNeighbour_valid facets maxId hid hnodup f.n2 h2
    subst hf_row
    rcases he with he | he | he <;> subst he <;>
      by_cases ht : f.toporient <;>
        simp only [nbrRow, get_facet_neighbours, ht, if_true, if_false] <;>
          first | exact b0 | exact b1 | exact b2
  · have hlt : ∀ f ∈ facets, f.fid < (List.replicate (maxId + 1) (0 : Int)).length := by
      intro f hf
      simp [Nat.lt_succ_of_le (hid f hf)]
    exact triIndexPass_values facets (List.replicate (maxId + 1) 0) 0 hnodup hlt
  · intro pos nb hsome hup
    simp [mapNeighbour, hsome, hup]

/-- A single well-formed retained facet whose three neighbour pointers all
reference itself. -/
def wfFacet : Facet := ⟨0, false, true, 0, 1, 2, 0, 0, 0⟩

/-- C3 witness: the hypotheses of neighbors_entries_valid hold for the
one-facet engine output [wfFacet] with maxId 0, and the conclusion follows
for it. -/
theorem neighbors_entries_valid_witness :
    WF [wfFacet] 0 ∧
    ((∀ row ∈ (translateFacets [wfFacet] 0).neighbors,
      ∀ e : Int, (e = row.1 ∨ e = row.2.1 ∨ e = row.2.2) →
        e = -1 ∨ (0 ≤ e ∧ e < Int.ofNat (countRetained [wfFacet]))) ∧
    (((List.filter (fun f => !f.upperdelaunay) [wfFacet]).map
        (fun f => (buildTriIndices [wfFacet] 0).getD f.fid 0)) =
      denseFrom 0 (countRetained [wfFacet])) ∧
    (∀ pos : Nat, ∀ nb : Facet, [wfFacet][pos]? = some nb → nb.upperdelaunay = true →
      mapNeighbour [wfFacet] (buildTriIndices [wfFacet] 0) pos = -1)) :=
  ⟨by decide, neighbors_entries_valid [wfFacet] 0 (by decide)⟩

/-- Default point used only to total the list indexing in statements; all
indices used are in range. -/
def pZero : Pt := (FP.val 0, FP.val 0)

/-- The scan loop of at_least_3_unique_points.  The state is the second
unique point once found (the C code stores its index in unique2, with 0
meaning not yet found; only the point value is ever used).  In the search
state, a point differing from the first point becomes the second unique
point; afterwards a point differing from both proves 3 unique points. -/
def scan3 (p0 : Pt) : List Pt → Option Pt → Bool
  | [], _ => false
  | p :: rest, none =>
    if pointNe p p0 then scan3 p0 rest (some p) else scan3 p0 rest none
  | p :: rest, some pu =>
    if pointNe p p0 && pointNe p pu then true else scan3 p0 rest (some pu)

/-- The input validator at_least_3_unique_points: false for fewer than 3
points, otherwise the single scan starting from point 0. -/
def at_least_3_unique_points (pts : List Pt) : Bool :=
  if pts.length < 3 then false
  else
    match pts with
    | [] => false
    | p0 :: rest => scan3 p0 rest none

/-- Existence of three pairwise-IEEE-distinct points in the input: the
specification-level reading of the validator, phrased over indices. -/
def has3Distinct (pts : List Pt) : Prop :=
  ∃ i j k : Nat, i < j ∧ j < k ∧ k < pts.length ∧
    pointNe (pts.getD i pZero) (pts.getD j pZero) = true ∧
    pointNe (pts.getD i pZero) (pts.getD k pZero) = true ∧
    pointNe (pts.getD j pZero) (pts.getD k pZero) = true

lemma fpEq_true_iff (u v : FP) : fpEq u v = true ↔ (u = v ∧ u ≠ FP.nan) := by
  cases u <;> cases v <;> simp [fpEq]

lemma fpEq_comm (u v : FP) : fpEq u v = fpEq v u := by
  cases u <;> cases v <;> simp [fpEq, eq_comm]

lemma pointNe_comm (p q : Pt) : pointNe p q = pointNe q p := by
  simp [pointNe, fpEq_comm, Bool.or_comm]

lemma pointNe_false_iff (p q : Pt) :
    pointNe p q = false ↔ (p = q ∧ p.1 ≠ FP.nan ∧ p.2 ≠ FP.nan) := by
  obtain ⟨p1, p2⟩ := p
  obtain ⟨q1, q2⟩ := q
  simp only [pointNe, Bool.or_eq_false_iff, Bool.not_eq_false', fpEq_true_iff, Prod.mk.injEq]
  tauto

lemma pointNe_eqv_trans {a b c : Pt} (hac : pointNe a c = false) (hbc : pointNe b c = false) :
    pointNe a b = false := by
  rw [pointNe_false_iff] at hac hbc ⊢
  obtain ⟨hac1, hac2, hac3⟩ := hac
  obtain ⟨hbc1, _, _⟩ := hbc
  exact ⟨hac1.trans hbc1.symm, hac2, hac3⟩

lemma pointNe_of_nan_left {p : Pt} (q : Pt) (h : p.1 = FP.nan ∨ p.2 = FP.nan) :
    pointNe p q = true := by
  rcases h with h | h <;> rw [pointNe] <;> rw [h] <;> simp [fpEq]

lemma pointNe_of_nan_right (p : Pt) {q : Pt} (h : q.1 = FP.nan ∨ q.2 = FP.nan) :
    pointNe p q = true := by
  rw [pointNe_comm]
  exact pointNe_of_nan_left p h

lemma getD_cons_zero (a : Pt) (l : List Pt) (d : Pt) : (a :: l).getD 0 d = a := rfl

lemma getD_cons_succ (a : Pt) (l : List Pt) (n : Nat) (d : Pt) :
    (a :: l).getD (n + 1) d = l.getD n d := rfl

lemma scan3_some_true (l : List Pt) : ∀ (p0 pu : Pt), scan3 p0 l (some pu) = true →
    ∃ j, j < l.length ∧ pointNe (l.getD j pZero) p0 = true ∧
      pointNe (l.getD j pZero) pu = true := by
  induction l with
  | nil => intro p0 pu h; exact absurd h (by simp [scan3])
  | cons p rest ih =>
    intro p0 pu h
    by_cases hc : (pointNe p p0 && pointNe p pu) = true
    · have hc2 : pointNe p p0 = true ∧ pointNe p pu = true := by simpa using hc
      obtain ⟨h1, h2⟩ := hc2
      exact ⟨0, by simp, by simpa [getD_cons_zero] using h1, by simpa [getD_cons_zero] using h2⟩
    · rw [scan3, if_neg hc] at h
      obtain ⟨j, hj, hj0, hju⟩ := ih p0 pu h
      exact ⟨j + 1, by simpa using Nat.succ_lt_succ hj, by simpa [getD_cons_succ] using hj0,
        by simpa [getD_cons_succ] using hju⟩

lemma scan3_none_true (l : List Pt) : ∀ (p0 : Pt), scan3 p0 l none = true →
    ∃ i j, i < j ∧ j < l.length ∧ pointNe (l.getD i pZero) p0 = true ∧
      pointNe (l.getD j pZero) p0 = true ∧
      pointNe (l.getD j pZero) (l.getD i pZero) = true := by
  induction l with
  | nil => intro p0 h; exact absurd h (by simp [scan3])
  | cons p rest ih =>
    intro p0 h
    by_cases hc : pointNe p p0 = true
    · rw [scan3, if_pos hc] at h
      obtain ⟨j, hj, hj0, hjp⟩ := scan3_some_true rest p0 p h
      exact ⟨0, j + 1, Nat.succ_pos j, by simpa using Nat.succ_lt_succ hj,
        by simpa [getD_cons_zero] using hc, by simpa [getD_cons_succ] using hj0,
        by simpa [getD_cons_succ, getD_cons_zero] using hjp⟩
    · rw [scan3, if_neg hc] at h
      obtain ⟨i, j, hij, hj, hi0, hj0, hji⟩ := ih p0 h
      exact ⟨i + 1, j + 1, Nat.succ_lt_succ hij, by simpa using Nat.succ_lt_succ hj,
        by simpa [getD_cons_succ] using hi0, by simpa [getD_cons_succ] using hj0,
        by simpa [getD_cons_succ] using hji⟩

lemma scan3_some_false (l : List Pt) : ∀ (p0 pu : Pt), scan3 p0 l (some pu) = false →
    ∀ j, j < l.length → pointNe (l.getD j pZero) p0 = false ∨
      pointNe (l.getD j pZero) pu = false := by
  induction l with
  | nil => intro p0 pu _ j hj; exact absurd hj (by simp)
  | cons p rest ih =>
    intro p0 pu h j hj
    by_cases hc : (pointNe p p0 && pointNe p pu) = true
    · rw [scan3, if_pos hc] at h
      exact absurd h (by simp)
    · rw [scan3, if_neg hc] at h
      cases j with
      | zero =>
        rw [getD_cons_zero]
        cases h1 : pointNe p p0
        · exact Or.inl rfl
        · cases h2 : pointNe p pu
          · exact Or.inr rfl
          · exact absurd (by rw [h1, h2]; rfl) hc
      | succ j =>
        rw [getD_cons_succ]
        exact ih p0 pu h j (by simpa using Nat.lt_of_succ_lt_succ hj)

lemma scan3_none_false (l : List Pt) : ∀ (p0 : Pt), scan3 p0 l none = false →
    (∀ idx, idx < l.length → pointNe (l.getD idx pZero) p0 = false) ∨
    (∃ m, m < l.length ∧ ∀ idx, idx < l.length → idx ≠ m →
      (pointNe (l.getD idx pZero) p0 = false ∨
        pointNe (l.getD idx pZero) (l.getD m pZero) = false)) := by
  induction l with
  | nil => intro p0 _; exact Or.inl (fun idx hidx => absurd hidx (by simp))
  | cons p rest ih =>
    intro p0 h
    by_cases hc : pointNe p p0 = true
    · rw [scan3, if_pos hc] at h
      refine Or.inr ⟨0, by simp, ?_⟩
      intro idx hidx hne0
      obtain ⟨i, rfl⟩ : ∃ i, idx = i + 1 := ⟨idx - 1, by omega⟩
      rw [getD_cons_succ, getD_cons_zero]
      exact scan3_some_false rest p0 p h i (by simpa using Nat.lt_of_succ_lt_succ hidx)
    · have hc0 : pointNe p p0 = false := by
        cases hx : pointNe p p0
        · rfl
        · exact absurd hx hc
      rw [scan3, if_neg hc] at h
      rcases ih p0 h with hall | ⟨m, hm, hprop⟩
      · refine Or.inl ?_
        intro idx hidx
        cases idx with
        | zero => rw [getD_cons_zero]; exact hc0
        | succ i =>
          rw [getD_cons_succ]
          exact hall i (by simpa using Nat.lt_of_succ_lt_succ hidx)
      · refine Or.inr ⟨m + 1, by simpa using Nat.succ_lt_succ hm, ?_⟩
        intro idx hidx hne
        cases idx with
        | zero => rw [getD_cons_zero]; exact Or.inl hc0
        | succ i =>
          rw [getD_cons_succ, getD_cons_succ]
          exact hprop i (by simpa using Nat.lt_of_succ_lt_succ hidx) (by omega)

lemma has3_of_at3 (pts : List Pt) (h : at_least_3_unique_points pts = true) :
    has3Distinct pts := by
  rw [at_least_3_unique_points.eq_def] at h
  by_cases hlen : pts.length < 3
  · rw [if_pos hlen] at h
    exact absurd h (by simp)
  · rw [if_neg hlen] at h
    cases pts with
    | nil => exact absurd (by simp) hlen
    | cons p0 rest =>
      obtain ⟨i, j, hij, hj, hi0, hj0, hji⟩ := scan3_none_true rest p0 h
      refine ⟨0, i + 1, j + 1, by omega, by omega, by simpa using Nat.succ_lt_succ hj,
        ?_, ?_, ?_⟩
      · rw [getD_cons_zero, getD_cons_succ, pointNe_comm]
        exact hi0
      · rw [getD_cons_zero, getD_cons_succ, pointNe_comm]
        exact hj0
      · rw [getD_cons_succ, getD_cons_succ, pointNe_comm]
        exact hji

lemma at3_of_has3 (pts : List Pt) (h : has3Distinct pts) :
    at_least_3_unique_points pts = true := by
  obtain ⟨i, j, k, hij, hjk, hk, nij, nik, njk⟩ := h
  cases pts with
  | nil => exact absurd hk (by simp)
  | cons p0 rest =>
    have hklen : k < rest.length + 1 := by simpa using hk
    cases hscan : scan3 p0 rest none
    case true =>
      rw [at_least_3_unique_points.eq_def, if_neg (by simp; omega)]
      exact hscan
    case false =>
      exfalso
      have contra : ∀ {a b : Pt}, pointNe a b = true → pointNe a b = false → False := by
        intro a b h1 h2
        rw [h1] at h2
        exact Bool.noConfusion h2
      rcases scan3_none_false rest p0 hscan with hall | ⟨m, hm, hprop⟩
      · obtain ⟨j', rfl⟩ : ∃ t, j = t + 1 := ⟨j - 1, by omega⟩
        obtain ⟨k', rfl⟩ : ∃ t, k = t + 1 := ⟨k - 1, by omega⟩
        have hj' : pointNe (rest.getD j' pZero) p0 = false := hall j' (by omega)
        have hk' : pointNe (rest.getD k' pZero) p0 = false := hall k' (by omega)
        rw [getD_cons_succ, getD_cons_succ] at njk
        exact contra njk (pointNe_eqv_trans hj' hk')
      · have chi : ∀ t, t < (p0 :: rest).length → t ≠ 0 → t ≠ m + 1 →
            (pointNe ((p0 :: rest).getD t pZero) p0 = false ∨
              pointNe ((p0 :: rest).getD t pZero) (rest.getD m pZero) = false) := by
          intro t ht ht0 htM
          obtain ⟨s, rfl⟩ : ∃ s, t = s + 1 := ⟨t - 1, by omega⟩
          rw [getD_cons_succ]
          exact hprop s (by simpa using Nat.lt_of_succ_lt_succ ht) (by omega)
        have hlen : (p0 :: rest).length = rest.length + 1 := by simp
        by_cases hi0 : i = 0
        · subst hi0
          rw [getD_cons_zero] at nij nik
          by_cases hjM : j = m + 1
          · rcases chi k (by omega) (by omega) (by omega) with hP | hQ
            · exact contra nik (by rw [pointNe_comm]; exact hP)
            · subst hjM
              rw [getD_cons_succ] at njk
              exact contra njk (by rw [pointNe_comm]; exact hQ)
          · by_cases hkM : k = m + 1
            · rcases chi j (by omega) (by omega) hjM with hP | hQ
              · exact contra nij (by rw [pointNe_comm]; exact hP)
              · subst hkM
                rw [getD_cons_succ] at njk
                exact contra njk hQ
            · rcases chi j (by omega) (by omega) hjM with hPj | hQj
              · exact contra nij (by rw [pointNe_comm]; exact hPj)
              · rcases chi k (by omega) (by omega) hkM with hPk | hQk
                · exact contra nik (by rw [pointNe_comm]; exact hPk)
                · exact contra njk (pointNe_eqv_trans hQj hQk)
        · by_cases hiM : i = m + 1
          · rcases chi j (by omega) (by omega) (by omega) with hPj | hQj
            · rcases chi k (by omega) (by omega) (by omega) with hPk | hQk
              · exact contra njk (pointNe_eqv_trans hPj hPk)
              · subst hiM
                rw [getD_cons_succ] at nik
                exact contra nik (by rw [pointNe_comm]; exact hQk)
            · subst hiM
              rw [getD_cons_succ] at nij
              exact contra nij (by rw [pointNe_comm]; exact hQj)
          · by_cases hjM : j = m + 1
            · rcases chi i (by omega) hi0 hiM with hPi | hQi
              · rcases chi k (by omega) (by omega) (by omega) with hPk | hQk
                · exact contra nik (pointNe_eqv_trans hPi hPk)
                · subst hjM
                  rw [getD_cons_succ] at njk
                  exact contra njk (by rw [pointNe_comm]; exact hQk)
              · subst hjM
                rw [getD_cons_succ] at nij
                exact contra nij hQi
            · by_cases hkM : k = m + 1
              · rcases chi i (by omega) hi0 hiM with hPi | hQi
                · rcases chi j (by omega) (by omega) hjM with hPj | hQj
                  · exact contra nij (pointNe_eqv_trans hPi hPj)
                  · subst hkM
                    rw [getD_cons_succ] at njk
                    exact contra njk hQj
                · subst hkM
                  rw [getD_cons_succ] at nik
                  exact contra nik hQi
              · rcases chi i (by omega) hi0 hiM with hPi | hQi
                · rcases chi j (by omega) (by omega) hjM with hPj | hQj
                  · exact contra nij (pointNe_eqv_trans hPi hPj)
                  · rcases chi k (by omega) (by omega) hkM with hPk | hQk
                    · exact contra nik (pointNe_eqv_trans hPi hPk)
                    · exact contra njk (pointNe_eqv_trans hQj hQk)
                · rcases chi j (by omega) (by omega) hjM with hPj | hQj
                  · rcases chi k (by omega) (by omega) hkM with hPk | hQk
                    · exact contra njk (pointNe_eqv_trans hPj hPk)
                    · exact contra nik (pointNe_eqv_trans hQi hQk)
                  · exact contra nij (pointNe_eqv_trans hQi hQj)

/-- The validator returns true exactly when three pairwise-IEEE-distinct
points exist in the input. -/
lemma at3_true_iff (pts : List Pt) :
    at_least_3_unique_points pts = true ↔ has3Distinct pts :=
  ⟨has3_of_at3 pts, at3_of_has3 pts⟩

/-- Addition on modelled doubles: NaN absorbs, finite values add exactly. -/
def FP.add : FP → FP → FP
  | FP.nan, _ => FP.nan
  | FP.val _, FP.nan => FP.nan
  | FP.val a, FP.val b => FP.val (a + b)

/-- Subtraction on modelled doubles: NaN absorbs. -/
def FP.sub : FP → FP → FP
  | FP.nan, _ => FP.nan
  | FP.val _, FP.nan => FP.nan
  | FP.val a, FP.val b => FP.val (a - b)

/-- Division on modelled doubles: NaN absorbs.  Only ever used with a
nonzero divisor (the validated point count). -/
def FP.div : FP → FP → FP
  | FP.nan, _ => FP.nan
  | FP.val _, FP.nan => FP.nan
  | FP.val a, FP.val b => FP.val (a / b)

/-- The accumulation loop computing x_mean (before the division): start at
0.0 and add every element. -/
def fpSum (l : List FP) : FP := l.foldl FP.add (FP.val 0)

/-- The coordinate conditioner of delaunay_impl: subtract the mean of the
first npoints x coordinates and y coordinates and interleave the two
arrays into the points buffer handed to the engine. -/
def conditionPoints (x y : List FP) : List Pt :=
  (x.map (fun v => v.sub ((fpSum x).div (FP.val (x.length : ℚ))))).zip
    ((y.take x.length).map
      (fun v => v.sub ((fpSum (y.take x.length)).div (FP.val (x.length : ℚ)))))

/-- Result of one engine run (qh_new_qhull followed by qh_triangulate and
the facet enumeration): a nonzero exit code, or the facet list together
with the maximal facet id (qh facet_id minus one). -/
inductive EngineResult where
  | err : Nat → EngineResult
  | ok : List Facet → Nat → EngineResult

/-- The caller-visible failures of the delaunay entry point. -/
inductive DError where
  | mismatchedLengths
  | tooFewPoints
  | notEnoughUniquePoints
  | engineError (category : String) (exitcode : Nat) (hintAppended : Bool)
  | allocFailure
  deriving DecidableEq, Repr

/-- Default string for an out-of-table lookup. -/
def noMsg : String := ""

/-- The qhull_error_msg table of the C source, indexed by exit code. -/
def qhull_error_msg : List String :=
  ["", "input inconsistency", "singular input data", "precision error",
   "insufficient memory", "internal error"]

/-- The message text attached to each error, as formatted by the C
source. -/
def errMessage : DError → String
  | DError.mismatchedLengths => "x and y must be 1D arrays of the same length"
  | DError.tooFewPoints => "x and y arrays must have a length of at least 3"
  | DError.notEnoughUniquePoints => "x and y arrays must consist of at least 3 unique points"
  | DError.engineError c k h =>
    "Error in qhull Delaunay triangulation calculation: " ++ c ++
      " (exitcode=" ++ toString k ++ ")" ++
      (if h then "; use python verbose option (-v) to see original qhull error." else noMsg)
  | DError.allocFailure => "Failed to create Python tuple"

/-- Observable resource events of one delaunay_impl call, in order. -/
inductive Event where
  | sinkSelect : Bool → Event
  | engineInvoked : Event
  | freeqhull : Event
  | memfreeshort : Event
  | residualWarning : Event
  | closeErrorFile : Event
  deriving DecidableEq, Repr

/-- The QhullInfo destructor: qh_freeqhull, then qh_memfreeshort; a nonzero
residual (curlong or totlong) raises only a warning; the error file is
closed exactly when it is not stderr, that is when diagnostics were being
hidden.  C++ scoping runs this on every exit path of delaunay_impl. -/
def qhullInfoCleanup (residual : Nat × Nat) (hide : Bool) : List Event :=
  [Event.freeqhull, Event.memfreeshort] ++
    (if residual.1 ≠ 0 ∨ residual.2 ≠ 0 then [Event.residualWarning] else []) ++
    (if hide then [Event.closeErrorFile] else [])

/-- The delaunay_impl body: select the diagnostics sink, run the engine on
the conditioned points, and either surface the engine error with its
category and raw exit code, or translate the facets (failing with
allocFailure when the host allocation fails).  The guard cleanup events
terminate the trace on every path.  The engine, the residual memory
amounts and allocation success are oracle parameters. -/
def delaunay_impl (engine : List Pt → EngineResult) (residual : Nat × Nat)
    (allocOk : Bool) (x y : List FP) (hide : Bool) : Except DError Output × List Event :=
  match engine (conditionPoints x y) with
  | EngineResult.err code =>
    (Except.error (DError.engineError (qhull_error_msg.getD code noMsg) code hide),
      Event.sinkSelect hide :: Event.engineInvoked :: qhullInfoCleanup residual hide)
  | EngineResult.ok facets maxId =>
    if allocOk then
      (Except.ok (translateFacets facets maxId),
        Event.sinkSelect hide :: Event.engineInvoked :: qhullInfoCleanup residual hide)
    else
      (Except.error DError.allocFailure,
        Event.sinkSelect hide :: Event.engineInvoked :: qhullInfoCleanup residual hide)

/-- The delaunay entry point: length check, minimum count check, unique
point check, then delaunay_impl with diagnostics hidden exactly when the
verbosity level is zero. -/
def delaunay (engine : List Pt → EngineResult) (residual : Nat × Nat) (allocOk : Bool)
    (x y : List FP) (verbose : Int) : Except DError Output × List Event :=
  if x.length ≠ y.length then (Except.error DError.mismatchedLengths, [])
  else if x.length < 3 then (Except.error DError.tooFewPoints, [])
  else if at_least_3_unique_points (x.zip y) = false then
    (Except.error DError.notEnoughUniquePoints, [])
  else delaunay_impl engine residual allocOk x y (decide (verbose = 0))

/-- Discriminates the three invalid-input failures from every other
outcome. -/
def isInvalidInput : Except DError Output → Bool
  | Except.error DError.mismatchedLengths => true
  | Except.error DError.tooFewPoints => true
  | Except.error DError.notEnoughUniquePoints => true
  | _ => false

/-- Normalises the only flag-dependent field of an error: the textual hint
appended when diagnostics were hidden. -/
def stripHint : DError → DError
  | DError.engineError c k _ => DError.engineError c k true
  | e => e

/-- stripHint lifted to call results. -/
def stripHintE : Except DError Output → Except DError Output
  | Except.error e => Except.error (stripHint e)
  | Except.ok o => Except.ok o

/-- Keeps every trace event except those describing the diagnostics sink
(its selection and its closing). -/
def nonSinkEvent : Event → Bool
  | Event.sinkSelect _ => false
  | Event.closeErrorFile => false
  | _ => true

lemma delaunay_impl_trace (engine : List Pt → EngineResult) (residual : Nat × Nat)
    (allocOk : Bool) (x y : List FP) (hide : Bool) :
    (delaunay_impl engine residual allocOk x y hide).2 =
      Event.sinkSelect hide :: Event.engineInvoked :: qhullInfoCleanup residual hide := by
  cases hres : engine (conditionPoints x y) with
  | err code => simp [delaunay_impl, hres]
  | ok facets maxId => cases allocOk <;> simp [delaunay_impl, hres]

lemma delaunay_impl_fst_residual (engine : List Pt → EngineResult)
    (residual residual₂ : Nat × Nat) (allocOk : Bool) (x y : List FP) (hide : Bool) :
    (delaunay_impl engine residual allocOk x y hide).1 =
      (delaunay_impl engine residual₂ allocOk x y hide).1 := by
  cases hres : engine (conditionPoints x y) with
  | err code => simp [delaunay_impl, hres]
  | ok facets maxId => cases allocOk <;> simp [delaunay_impl, hres]

/-- C9: on every exit path of delaunay_impl (engine error, allocation
failure, success) the trace ends with the guard cleanup block (freeqhull
then memfreeshort, then at most a warning and the file close), the
returned value never depends on the residual memory amounts (the warning
is non-fatal and discards nothing), and the warning is emitted exactly
when some residual memory remained. -/
theorem cleanup_on_all_paths (engine : List Pt → EngineResult) (residual : Nat × Nat)
    (allocOk : Bool) (x y : List FP) (hide : Bool) :
    ((delaunay_impl engine residual allocOk x y hide).2 =
      Event.sinkSelect hide :: Event.engineInvoked :: qhullInfoCleanup residual hide) ∧
    (∀ residual₂, (delaunay_impl engine residual allocOk x y hide).1 =
      (delaunay_impl engine residual₂ allocOk x y hide).1) ∧
    (Event.residualWarning ∈ (delaunay_impl engine residual allocOk x y hide).2 ↔
      (residual.1 ≠ 0 ∨ residual.2 ≠ 0)) := by
  refine ⟨delaunay_impl_trace engine residual allocOk x y hide,
    fun residual₂ => delaunay_impl_fst_residual engine residual residual₂ allocOk x y hide,
    ?_⟩
  rw [delaunay_impl_trace engine residual allocOk x y hide]
  by_cases hc : residual.1 ≠ 0 ∨ residual.2 ≠ 0 <;>
    by_cases hh : hide <;>
      simp [qhullInfoCleanup, hc, hh]

/-- C5: whenever the engine exits with one of its nonzero codes, the call
fails with an engine error carrying the classification text of the fixed
table at that code together with the raw exit code, the classification is
one of the five fixed categories, and no output is produced. -/
theorem engine_error_propagation (engine : List Pt → EngineResult) (residual : Nat × Nat)
    (allocOk : Bool) (x y : List FP) (hide : Bool) (code : Nat)
    (hengine : engine (conditionPoints x y) = EngineResult.err code)
    (hlo : 1 ≤ code) (hhi : code ≤ 5) :
    ((delaunay_impl engine residual allocOk x y hide).1 =
        Except.error (DError.engineError (qhull_error_msg.getD code noMsg) code hide)) ∧
    ((qhull_error_msg.getD code noMsg) ∈ ["input inconsistency", "singular input data",
        "precision error", "insufficient memory", "internal error"]) ∧
    (∀ out : Output, (delaunay_impl engine residual allocOk x y hide).1 ≠
      Except.ok out) := by
  have h1 : (delaunay_impl engine residual allocOk x y hide).1 =
      Except.error (DError.engineError (qhull_error_msg.getD code noMsg) code hide) := by
    simp [delaunay_impl, hengine]
  refine ⟨h1, ?_, ?_⟩
  · interval_cases code <;> decide
  · intro out
    rw [h1]
    simp

/-- C5 witness: an engine stub exiting with code 3 (precision error) makes
delaunay_impl fail with exactly that classification and exit code. -/
theorem engine_error_propagation_witness :
    ((fun _ : List Pt => EngineResult.err 3) (conditionPoints [] []) =
      EngineResult.err 3) ∧ 1 ≤ 3 ∧ 3 ≤ 5 ∧
    (((delaunay_impl (fun _ : List Pt => EngineResult.err 3) (0, 0) true [] [] false).1 =
        Except.error (DError.engineError (qhull_error_msg.getD 3 noMsg) 3 false)) ∧
      ((qhull_error_msg.getD 3 noMsg) ∈ ["input inconsistency", "singular input data",
          "precision error", "insufficient memory", "internal error"]) ∧
      (∀ out : Output, (delaunay_impl (fun _ : List Pt => EngineResult.err 3)
          (0, 0) true [] [] false).1 ≠ Except.ok out)) :=
  ⟨rfl, by omega, by omega,
    engine_error_propagation (fun _ : List Pt => EngineResult.err 3) (0, 0) true [] []
      false 3 rfl (by omega) (by omega)⟩

lemma delaunay_impl_strip_flag (engine : List Pt → EngineResult) (residual : Nat × Nat)
    (allocOk : Bool) (x y : List FP) (h₁ h₂ : Bool) :
    stripHintE (delaunay_impl engine residual allocOk x y h₁).1 =
      stripHintE (delaunay_impl engine residual allocOk x y h₂).1 := by
  cases hres : engine (conditionPoints x y) with
  | err code => simp [delaunay_impl, hres, stripHintE, stripHint]
  | ok facets maxId => cases allocOk <;> simp [delaunay_impl, hres, stripHintE, stripHint]

lemma trace_filter_flag (residual : Nat × Nat) (hb : Bool) :
    (Event.sinkSelect hb :: Event.engineInvoked ::
        qhullInfoCleanup residual hb).filter nonSinkEvent =
      Event.engineInvoked :: Event.freeqhull :: Event.memfreeshort ::
        (if residual.1 ≠ 0 ∨ residual.2 ≠ 0 then [Event.residualWarning] else []) := by
  by_cases hc : residual.1 ≠ 0 ∨ residual.2 ≠ 0 <;> cases hb <;>
    simp [qhullInfoCleanup, nonSinkEvent, hc]

/-- C8: the error classification (invalid-input reason, engine category
and raw exit code) and the success output of a call do not depend on the
verbosity flag; the flag changes only the appended hint text and the
diagnostics-sink events of the trace. -/
theorem diagnostics_flag_noninterference (engine : List Pt → EngineResult)
    (residual : Nat × Nat) (allocOk : Bool) (x y : List FP) (v₁ v₂ : Int) :
    (stripHintE (delaunay engine residual allocOk x y v₁).1 =
      stripHintE (delaunay engine residual allocOk x y v₂).1) ∧
    (((delaunay engine residual allocOk x y v₁).2).filter nonSinkEvent =
      ((delaunay engine residual allocOk x y v₂).2).filter nonSinkEvent) := by
  by_cases h1 : x.length ≠ y.length
  · simp [delaunay, h1]
  · by_cases h2 : x.length < 3
    · simp [delaunay, h1, h2]
    · by_cases h3 : at_least_3_unique_points (x.zip y) = false
      · simp [delaunay, h1, h2, h3]
      · simp only [delaunay, if_neg h1, if_neg h2, if_neg h3]
        constructor
        · exact delaunay_impl_strip_flag engine residual allocOk x y _ _
        · rw [delaunay_impl_trace, delaunay_impl_trace, trace_filter_flag, trace_filter_flag]

lemma isInvalidInput_impl (engine : List Pt → EngineResult) (residual : Nat × Nat)
    (allocOk : Bool) (x y : List FP) (hide : Bool) :
    isInvalidInput (delaunay_impl engine residual allocOk x y hide).1 = false := by
  cases hres : engine (conditionPoints x y) with
  | err code => simp [delaunay_impl, hres, isInvalidInput]
  | ok facets maxId => cases allocOk <;> simp [delaunay_impl, hres, isInvalidInput]

lemma impl_fst_ne_invalid (engine : List Pt → EngineResult) (residual : Nat × Nat)
    (allocOk : Bool) (x y : List FP) (hide : Bool) (e : DError)
    (he : isInvalidInput (Except.error e : Except DError Output) = true) :
    (delaunay_impl engine residual allocOk x y hide).1 ≠ Except.error e := by
  intro hEq
  have hfalse := isInvalidInput_impl engine residual allocOk x y hide
  rw [hEq, he] at hfalse
  exact Bool.noConfusion hfalse

/-- C4: the validation of the delaunay entry point succeeds exactly when
the two arrays have equal length, at least 3 points, and at least 3
pairwise-distinct coordinate pairs under the exact IEEE comparison; each of
the three invalid-input errors is returned exactly in its own case, the
distinguishing message texts differ, and on an invalid-input failure no
engine work has happened (the trace is empty). -/
theorem validation_iff_3_unique (engine : List Pt → EngineResult) (residual : Nat × Nat)
    (allocOk : Bool) (x y : List FP) (verbose : Int) :
    (isInvalidInput (delaunay engine residual allocOk x y verbose).1 = false ↔
      (x.length = y.length ∧ 3 ≤ x.length ∧ has3Distinct (x.zip y))) ∧
    ((delaunay engine residual allocOk x y verbose).1 =
        Except.error DError.mismatchedLengths ↔ x.length ≠ y.length) ∧
    ((delaunay engine residual allocOk x y verbose).1 =
        Except.error DError.tooFewPoints ↔
      (x.length = y.length ∧ x.length < 3)) ∧
    ((delaunay engine residual allocOk x y verbose).1 =
        Except.error DError.notEnoughUniquePoints ↔
      (x.length = y.length ∧ 3 ≤ x.length ∧ ¬ has3Distinct (x.zip y))) ∧
    (isInvalidInput (delaunay engine residual allocOk x y verbose).1 = false ∨
      (delaunay engine residual allocOk x y verbose).2 = []) ∧
    (errMessage DError.tooFewPoints ≠ errMessage DError.notEnoughUniquePoints) := by
  by_cases h1 : x.length = y.length
  · by_cases h2 : x.length < 3
    · simp only [delaunay, if_neg (not_not_intro h1), if_pos h2]
      refine ⟨?_, ?_, ?_, ?_, Or.inr trivial, by decide⟩
      · exact iff_of_false (by simp [isInvalidInput]) (fun ⟨_, h3le, _⟩ => by omega)
      · exact iff_of_false (by simp) (not_not_intro h1)
      · exact iff_of_true trivial ⟨h1, h2⟩
      · exact iff_of_false (by simp) (fun ⟨_, h3le, _⟩ => by omega)
    · by_cases h3 : has3Distinct (x.zip y)
      · have hat : at_least_3_unique_points (x.zip y) = true := at3_of_has3 _ h3
        have hcond3 : ¬ (at_least_3_unique_points (x.zip y) = false) := by
          rw [hat]; simp
        simp only [delaunay, if_neg (not_not_intro h1), if_neg h2, if_neg hcond3]
        refine ⟨?_, ?_, ?_, ?_, Or.inl ?_, by decide⟩
        · exact iff_of_true (isInvalidInput_impl engine residual allocOk x y _)
            ⟨h1, by omega, h3⟩
        · exact iff_of_false
            (impl_fst_ne_invalid engine residual allocOk x y _ DError.mismatchedLengths rfl)
            (not_not_intro h1)
        · exact iff_of_false
            (impl_fst_ne_invalid engine residual allocOk x y _ DError.tooFewPoints rfl)
            (fun ⟨_, hlt⟩ => h2 hlt)
        · exact iff_of_false
            (impl_fst_ne_invalid engine residual allocOk x y _
              DError.notEnoughUniquePoints rfl)
            (fun ⟨_, _, hn3⟩ => hn3 h3)
        · exact isInvalidInput_impl engine residual allocOk x y _
      · have hat : at_least_3_unique_points (x.zip y) = false := by
          cases hx : at_least_3_unique_points (x.zip y)
          · rfl
          · exact absurd (has3_of_at3 _ hx) h3
        simp only [delaunay, if_neg (not_not_intro h1), if_neg h2, if_pos hat]
        refine ⟨?_, ?_, ?_, ?_, Or.inr trivial, by decide⟩
        · exact iff_of_false (by simp [isInvalidInput]) (fun ⟨_, _, hh⟩ => h3 hh)
        · exact iff_of_false (by simp) (not_not_intro h1)
        · exact iff_of_false (by simp) (fun ⟨_, hlt⟩ => h2 hlt)
        · exact iff_of_true trivial ⟨h1, by omega, h3⟩
  · simp only [delaunay, if_pos h1]
    refine ⟨?_, ?_, ?_, ?_, Or.inr trivial, by decide⟩
    · exact iff_of_false (by simp [isInvalidInput]) (fun ⟨hEq, _, _⟩ => h1 hEq)
    · exact iff_of_true trivial h1
    · exact iff_of_false (by simp) (fun ⟨hEq, _⟩ => h1 hEq)
    · exact iff_of_false (by simp) (fun ⟨hEq, _, _⟩ => h1 hEq)

/-- True exactly when a coordinate of the point is NaN. -/
def fpIsNaN : FP → Bool
  | FP.nan => true
  | FP.val _ => false

/-- True exactly when the point has a NaN coordinate. -/
def hasNaNCoord (p : Pt) : Bool := fpIsNaN p.1 || fpIsNaN p.2

lemma hasNaNCoord_iff (p : Pt) :
    hasNaNCoord p = true ↔ (p.1 = FP.nan ∨ p.2 = FP.nan) := by
  obtain ⟨a, b⟩ := p
  cases a <;> cases b <;> simp [hasNaNCoord, fpIsNaN]

/-- C10: a point with a NaN coordinate compares IEEE-unequal to every
point, itself included; if some point at index i of at least 1 has a NaN
coordinate and either another NaN point follows it or a second unique
point was already tracked before it, the validator accepts the input. -/
theorem nan_points_pass_validation (pts : List Pt) (i : Nat)
    (hlen : 3 ≤ pts.length) (hi1 : 1 ≤ i) (hik : i < pts.length)
    (hnan : hasNaNCoord (pts.getD i pZero) = true)
    (hside : (∃ j, i < j ∧ j < pts.length ∧ hasNaNCoord (pts.getD j pZero) = true) ∨
      (∃ u, 1 ≤ u ∧ u < i ∧
        pointNe (pts.getD u pZero) (pts.getD 0 pZero) = true)) :
    at_least_3_unique_points pts = true := by
  apply at3_of_has3
  have hnanI := (hasNaNCoord_iff _).mp hnan
  rcases hside with ⟨j, hij, hj, hnanj⟩ | ⟨u, hu1, hui, hneu⟩
  · have hnanJ := (hasNaNCoord_iff _).mp hnanj
    exact ⟨0, i, j, by omega, hij, hj,
      pointNe_of_nan_right _ hnanI,
      pointNe_of_nan_right _ hnanJ,
      pointNe_of_nan_right _ hnanJ⟩
  · exact ⟨0, u, i, by omega, hui, hik,
      by rw [pointNe_comm]; exact hneu,
      pointNe_of_nan_right _ hnanI,
      pointNe_of_nan_right _ hnanI⟩

/-- The all-NaN point. -/
def nanPt : Pt := (FP.nan, FP.nan)

/-- C10 witness: three identical copies of the all-NaN point satisfy the
hypotheses (index 1 has a NaN coordinate and index 2 is a later NaN
point), and the validator accepts them as 3 unique points. -/
theorem nan_points_pass_validation_witness :
    (3 ≤ ([nanPt, nanPt, nanPt] : List Pt).length ∧ 1 ≤ 1 ∧
      1 < ([nanPt, nanPt, nanPt] : List Pt).length ∧
      hasNaNCoord (([nanPt, nanPt, nanPt] : List Pt).getD 1 pZero) = true ∧
      ((∃ j, 1 < j ∧ j < ([nanPt, nanPt, nanPt] : List Pt).length ∧
          hasNaNCoord (([nanPt, nanPt, nanPt] : List Pt).getD j pZero) = true) ∨
        (∃ u, 1 ≤ u ∧ u < 1 ∧
          pointNe (([nanPt, nanPt, nanPt] : List Pt).getD u pZero)
            (([nanPt, nanPt, nanPt] : List Pt).getD 0 pZero) = true))) ∧
    at_least_3_unique_points [nanPt, nanPt, nanPt] = true :=
  ⟨⟨by decide, by decide, by decide, by decide,
      Or.inl ⟨2, by decide, by decide, by decide⟩⟩,
    nan_points_pass_validation [nanPt, nanPt, nanPt] 1 (by decide) (by decide) (by decide)
      (by decide) (Or.inl ⟨2, by decide, by decide, by decide⟩)⟩

lemma fp_add_swap (a b c : FP) : (FP.add (FP.add a b) c) = FP.add (FP.add a c) b := by
  cases a <;> cases b <;> cases c <;> simp [FP.add] <;> ring

lemma fp_add_val_zero (a : FP) : FP.add a (FP.val 0) = a := by
  cases a <;> simp [FP.add]

lemma fp_add_assoc_val (a : FP) (p q : ℚ) :
    FP.add (FP.add a (FP.val p)) (FP.val q) = FP.add a (FP.val (p + q)) := by
  cases a <;> simp [FP.add] <;> ring

lemma foldl_fp_add_pull (l : List FP) :
    ∀ (a c : FP), l.foldl FP.add (FP.add a c) = FP.add (l.foldl FP.add a) c := by
  induction l with
  | nil => intro a c; rfl
  | cons h t ih =>
    intro a c
    show t.foldl FP.add (FP.add (FP.add a c) h) = _
    rw [fp_add_swap a c h, ih (FP.add a h) c]
    rfl

lemma fpSum_shift (k : ℚ) (l : List FP) :
    fpSum (l.map (fun v => FP.add v (FP.val k))) =
      FP.add (fpSum l) (FP.val ((l.length : ℚ) * k)) := by
  rw [fpSum, fpSum]
  have main : ∀ (l : List FP) (a : FP),
      (l.map (fun v => FP.add v (FP.val k))).foldl FP.add a =
        FP.add (l.foldl FP.add a) (FP.val ((l.length : ℚ) * k)) := by
    intro l
    induction l with
    | nil =>
      intro a
      show a = FP.add a (FP.val ((0 : ℚ) * k))
      rw [zero_mul, fp_add_val_zero]
    | cons h t ih =>
      intro a
      show (t.map (fun v => FP.add v (FP.val k))).foldl FP.add (FP.add a (FP.add h (FP.val k)))
          = FP.add ((t.foldl FP.add (FP.add a h))) (FP.val (((t.length + 1 : Nat) : ℚ) * k))
      have hassoc : FP.add a (FP.add h (FP.val k)) = FP.add (FP.add a h) (FP.val k) := by
        cases a <;> cases h <;> simp [FP.add] <;> ring
      rw [hassoc, foldl_fp_add_pull, ih (FP.add a h), fp_add_assoc_val]
      congr 1
      push_cast
      ring
  exact main l (FP.val 0)

lemma shift_sub_mean (S : FP) (n : Nat) (hn : n ≠ 0) (k : ℚ) (v : FP) :
    FP.sub (FP.add v (FP.val k))
        (FP.div (FP.add S (FP.val ((n : ℚ) * k))) (FP.val (n : ℚ))) =
      FP.sub v (FP.div S (FP.val (n : ℚ))) := by
  have hn' : (n : ℚ) ≠ 0 := Nat.cast_ne_zero.mpr hn
  cases S with
  | nan => cases v <;> simp [FP.add, FP.div, FP.sub]
  | val s =>
    cases v with
    | nan => simp [FP.add, FP.div, FP.sub]
    | val q =>
      simp only [FP.add, FP.div, FP.sub, FP.val.injEq]
      field_simp
      ring

lemma centred_shift (l : List FP) (n : Nat) (hn : n ≠ 0) (hln : l.length = n) (k : ℚ) :
    (l.map (fun v => FP.add v (FP.val k))).map
        (fun v => FP.sub v
          (FP.div (fpSum (l.map (fun w => FP.add w (FP.val k)))) (FP.val (n : ℚ)))) =
      l.map (fun v => FP.sub v (FP.div (fpSum l) (FP.val (n : ℚ)))) := by
  rw [fpSum_shift, hln, List.map_map]
  have hfun : ((fun v => FP.sub v
      (FP.div (FP.add (fpSum l) (FP.val ((n : ℚ) * k))) (FP.val (n : ℚ)))) ∘
        (fun v => FP.add v (FP.val k))) =
      (fun v => FP.sub v (FP.div (fpSum l) (FP.val (n : ℚ)))) := by
    funext v
    show FP.sub (FP.add v (FP.val k)) _ = _
    exact shift_sub_mean (fpSum l) n hn k v
  rw [hfun]

lemma conditionPoints_shift (x y : List FP) (k : ℚ) (hlen : x.length = y.length) :
    conditionPoints (x.map (fun v => FP.add v (FP.val k)))
        (y.map (fun v => FP.add v (FP.val k))) = conditionPoints x y := by
  cases hx : x with
  | nil =>
    have hy : y = [] := List.length_eq_zero.mp (by rw [← hlen, hx]; rfl)
    subst hy
    rfl
  | cons x0 xs =>
    rw [← hx]
    have hn : x.length ≠ 0 := by rw [hx]; simp
    have htakeS : (y.map (fun v => FP.add v (FP.val k))).take
        (x.map (fun v => FP.add v (FP.val k))).length =
        y.map (fun v => FP.add v (FP.val k)) := by
      rw [List.length_map, hlen, ← List.length_map y (fun v => FP.add v (FP.val k))]
      exact List.take_length _
    have htake : y.take x.length = y := by
      rw [hlen]
      exact List.take_length y
    rw [conditionPoints, conditionPoints, htakeS, htake, List.length_map]
    rw [centred_shift x x.length hn rfl k,
      centred_shift y x.length hn hlen.symm k]

/-- The shift of one point by the constant k on both coordinates. -/
def shiftPt (k : ℚ) (p : Pt) : Pt := (FP.add p.1 (FP.val k), FP.add p.2 (FP.val k))

lemma zip_map_shift (x y : List FP) (k : ℚ) :
    (x.map (fun v => FP.add v (FP.val k))).zip (y.map (fun v => FP.add v (FP.val k))) =
      (x.zip y).map (shiftPt k) := by
  induction x generalizing y with
  | nil => simp
  | cons a xs ih =>
    cases y with
    | nil => simp
    | cons b ys => simp [shiftPt, ih]

lemma fpEq_shift (k : ℚ) (a b : FP) :
    fpEq (FP.add a (FP.val k)) (FP.add b (FP.val k)) = fpEq a b := by
  cases a <;> cases b <;> simp [FP.add, fpEq]

lemma pointNe_shift (k : ℚ) (p q : Pt) :
    pointNe (shiftPt k p) (shiftPt k q) = pointNe p q := by
  simp [pointNe, shiftPt, fpEq_shift]

lemma scan3_shift (k : ℚ) (l : List Pt) : ∀ (p0 : Pt) (st : Option Pt),
    scan3 (shiftPt k p0) (l.map (shiftPt k)) (st.map (shiftPt k)) = scan3 p0 l st := by
  induction l with
  | nil => intro p0 st; cases st <;> rfl
  | cons p rest ih =>
    intro p0 st
    cases st with
    | none =>
      show (if pointNe (shiftPt k p) (shiftPt k p0) then
          scan3 (shiftPt k p0) (rest.map (shiftPt k)) (some (shiftPt k p))
        else scan3 (shiftPt k p0) (rest.map (shiftPt k)) none) = _
      rw [pointNe_shift]
      by_cases hc : pointNe p p0 = true
      · rw [if_pos hc, scan3, if_pos hc]
        exact ih p0 (some p)
      · rw [if_neg hc, scan3, if_neg hc]
        exact ih p0 none
    | some pu =>
      show (if pointNe (shiftPt k p) (shiftPt k p0) && pointNe (shiftPt k p) (shiftPt k pu)
          then true else scan3 (shiftPt k p0) (rest.map (shiftPt k)) (some (shiftPt k pu))) = _
      rw [pointNe_shift, pointNe_shift]
      by_cases hc : (pointNe p p0 && pointNe p pu) = true
      · rw [if_pos hc, scan3, if_pos hc]
      · rw [if_neg hc, scan3, if_neg hc]
        exact ih p0 (some pu)

lemma at3_map_shift (k : ℚ) (pts : List Pt) :
    at_least_3_unique_points (pts.map (shiftPt k)) = at_least_3_unique_points pts := by
  cases pts with
  | nil => rfl
  | cons p0 rest =>
    rw [at_least_3_unique_points.eq_def, at_least_3_unique_points.eq_def]
    simp only [List.map_cons, List.length_cons, List.length_map]
    by_cases hl : rest.length + 1 < 3
    · rw [if_pos hl, if_pos hl]
    · rw [if_neg hl, if_neg hl]
      exact scan3_shift k rest p0 none

lemma delaunay_impl_congr (engine : List Pt → EngineResult) (residual : Nat × Nat)
    (allocOk : Bool) (x₁ y₁ x₂ y₂ : List FP) (hide : Bool)
    (h : conditionPoints x₁ y₁ = conditionPoints x₂ y₂) :
    delaunay_impl engine residual allocOk x₁ y₁ hide =
      delaunay_impl engine residual allocOk x₂ y₂ hide := by
  simp only [delaunay_impl, h]

/-- Exact-arithmetic counterpart of the translation-invariance property:
over the NaN-aware exact coordinate model, shifting every x and y
coordinate by the same finite constant k leaves the validator outcome and
the conditioned points, and hence the whole call result, literally
identical.  This is an idealisation of the conditioner only: the C source
performs the mean accumulation, the division by npoints and the per-point
subtraction in rounding IEEE double arithmetic, which this model does not
capture, so this lemma does not decide the behaviour of the double
precision program on shifted inputs. -/
theorem translation_invariance_exact (engine : List Pt → EngineResult) (residual : Nat × Nat)
    (allocOk : Bool) (x y : List FP) (k : ℚ) (verbose : Int) :
    delaunay engine residual allocOk (x.map (fun v => FP.add v (FP.val k)))
        (y.map (fun v => FP.add v (FP.val k))) verbose =
      delaunay engine residual allocOk x y verbose := by
  by_cases h1 : x.length = y.length
  · by_cases h2 : x.length < 3
    · have h1' : ¬ ((x.map (fun v => FP.add v (FP.val k))).length ≠
          (y.map (fun v => FP.add v (FP.val k))).length) := by
        simp [h1]
      simp only [delaunay, if_neg h1', if_neg (not_not_intro h1), List.length_map,
        if_pos h2]
    · have h1' : ¬ ((x.map (fun v => FP.add v (FP.val k))).length ≠
          (y.map (fun v => FP.add v (FP.val k))).length) := by
        simp [h1]
      have hat : at_least_3_unique_points ((x.map (fun v => FP.add v (FP.val k))).zip
          (y.map (fun v => FP.add v (FP.val k)))) = at_least_3_unique_points (x.zip y) := by
        rw [zip_map_shift, at3_map_shift]
      by_cases h3 : at_least_3_unique_points (x.zip y) = false
      · have h3' : at_least_3_unique_points ((x.map (fun v => FP.add v (FP.val k))).zip
            (y.map (fun v => FP.add v (FP.val k)))) = false := by rw [hat]; exact h3
        simp only [delaunay, if_neg h1', if_neg (not_not_intro h1), List.length_map,
          if_neg h2, if_pos h3, if_pos h3']
      · have h3' : ¬ (at_least_3_unique_points ((x.map (fun v => FP.add v (FP.val k))).zip
            (y.map (fun v => FP.add v (FP.val k)))) = false) := by rw [hat]; exact h3
        simp only [delaunay, if_neg h1', if_neg (not_not_intro h1), List.length_map,
          if_neg h2, if_neg h3, if_neg h3']
        exact delaunay_impl_congr engine residual allocOk _ _ x y _
          (conditionPoints_shift x y k h1)
  · have h1' : (x.map (fun v => FP.add v (FP.val k))).length ≠
        (y.map (fun v => FP.add v (FP.val k))).length := by
      simp [h1]
    simp only [delaunay, if_pos h1', if_pos h1]
